import Mathlib

/-!
Verification of `src/Private/predictor_server.py` from `alainQtec/cliHelper.predictor`.

The file shallowly embeds the prediction engine (`CommandPredictor.predict_next_command`),
the persistence acknowledgement path (`CommandPredictor.record_command` as seen by the
session), and the websocket session loop (`websocket_endpoint`).

Modelling decisions, documented once here:
* Scores are rationals (`ℚ`); the engine only compares and copies scores, so the
  real-versus-float distinction does not affect any claim proved below.
* The generative model (`self.model.generate` + `tokenizer.decode`) is an external
  black box; it is a parameter `g : String → Except String (List String)` producing
  the decoded candidate strings for a given input, or failing with an exception
  message.  `predict_next_command` contains no handler, so a failure propagates —
  exactly as in the Python source.
* The TF-IDF scorer is an external black box.  Per the interface in the spec it
  returns one similarity score per history entry; `Scorer.length_eq` records that
  contract.
* `np.argsort(scores)` is modelled as a stable ascending argsort: indices ordered by
  ascending score, ties by ascending index.  (NumPy's sort on the short score arrays
  involved is insertion sort, which is stable.)  Python's `arr[-3:]` is
  `List.drop (n - 3)` with truncated subtraction, which is the whole list when
  `n ≤ 3`.
* `decoded.startswith(current_input)` is character-sequence prefix testing,
  `current_input.data.isPrefixOf decoded.data`.
-/

/-- A prediction candidate, the dictionary `{"command": ..., "score": ...}` built by
`predict_next_command`. -/
structure Candidate where
  command : String
  score : ℚ
deriving DecidableEq

/-- The fixed confidence score `0.8` assigned to generative candidates
(lines 61 and 71 of the source). -/
def genScore : ℚ := 4 / 5

/-- Index comparison used to model `np.argsort(scores)`: ascending score,
ties broken by ascending index (stable argsort). -/
def idxLE (scores : List ℚ) (i j : Nat) : Prop :=
  scores.getD i 0 < scores.getD j 0 ∨ (scores.getD i 0 = scores.getD j 0 ∧ i ≤ j)

instance (scores : List ℚ) : DecidableRel (idxLE scores) := fun i j => by
  unfold idxLE; infer_instance

instance (scores : List ℚ) : IsTotal Nat (idxLE scores) where
  total i j := by
    rcases lt_trichotomy (scores.getD i 0) (scores.getD j 0) with h | h | h
    · exact Or.inl (Or.inl h)
    · rcases Nat.le_total i j with hij | hij
      · exact Or.inl (Or.inr ⟨h, hij⟩)
      · exact Or.inr (Or.inr ⟨h.symm, hij⟩)
    · exact Or.inr (Or.inl h)

instance (scores : List ℚ) : IsTrans Nat (idxLE scores) where
  trans i j k hij hjk := by
    rcases hij with hij | ⟨hij, hij2⟩
    · rcases hjk with hjk | ⟨hjk, _⟩
      · exact Or.inl (hij.trans hjk)
      · exact Or.inl (hjk ▸ hij)
    · rcases hjk with hjk | ⟨hjk, hjk2⟩
      · exact Or.inl (hij ▸ hjk)
      · exact Or.inr ⟨hij.trans hjk, hij2.trans hjk2⟩

/-- Model of `np.argsort(scores)` (line 64): the indices `0, …, scores.length - 1`
sorted by ascending score, ties by ascending index. -/
def argsort (scores : List ℚ) : List Nat :=
  List.insertionSort (idxLE scores) (List.range scores.length)

/-- First loop of the merge (lines 59–62): walk `ml_predictions`, skip commands
already in `seen`, and give every appended candidate the fixed score `0.8`. -/
def dedupGen : List String → List String → List Candidate
  | [], _ => []
  | p :: rest, seen =>
    if p ∈ seen then dedupGen rest seen
    else { command := p, score := genScore } :: dedupGen rest (p :: seen)

/-- Second loop of the merge (lines 64–67): walk the selected indices, skip history
entries whose command is already in `seen`, and score each appended entry with its
similarity score. -/
def appendHist (history : List String) (scores : List ℚ) :
    List Nat → List String → List Candidate
  | [], _ => []
  | idx :: rest, seen =>
    let cmd := history.getD idx ""
    if cmd ∈ seen then appendHist history scores rest seen
    else { command := cmd, score := scores.getD idx 0 } ::
      appendHist history scores rest (cmd :: seen)

/-- The index list selected by `np.argsort(scores)[-3:]` (line 64): the last
`min 3 n` entries of the ascending argsort. -/
def topIdx (scores : List ℚ) : List Nat :=
  (argsort scores).drop (scores.length - 3)

/-- The candidate a history index is turned into by the second merge loop
(line 66). -/
def histCand (history : List String) (scores : List ℚ) (i : ℕ) : Candidate :=
  { command := history.getD i "", score := scores.getD i 0 }

/-- The non-empty-history merge (lines 56–69): deduplicated generative candidates
first, then the top-3-by-similarity history entries in the order `argsort` leaves
them, skipping anything already seen.  After the first loop, `seen` holds exactly
the commands of `ml`, so the second loop starts from `ml` as its seen list. -/
def mergePredictions (ml : List String) (history : List String) (scores : List ℚ) :
    List Candidate :=
  dedupGen ml [] ++ appendHist history scores (topIdx scores) ml

/-- Modelled from the spec: the lexical similarity scorer
(`TfidfVectorizer` fit + transform, lines 50–53) is an external black box that,
given a query and a history corpus, produces one similarity score per corpus
entry. -/
structure Scorer where
  score : String → List String → List ℚ
  length_eq : ∀ q h, (score q h).length = h.length

/-- Embedding of `CommandPredictor.predict_next_command` (lines 29–71).
`g` is the generative black box for the current input; a failure of `g` propagates,
since the body contains no exception handler. -/
def predict_next_command (g : String → Except String (List String)) (sc : Scorer)
    (current_input : String) (history : List String) :
    Except String (List Candidate) :=
  match g current_input with
  | .error e => .error e
  | .ok outputs =>
    let ml_predictions := outputs.filter fun d => current_input.data.isPrefixOf d.data
    if history = [] then
      .ok (ml_predictions.map fun p => { command := p, score := genScore })
    else
      .ok (mergePredictions ml_predictions history (sc.score current_input history))

/-- Embedding of the same method with the predictor's one piece of mutable state made
explicit: `self.vectorizer`, represented by the corpus it was last fitted on
(`none` before any fit).  When `history` is non-empty the vectorizer is refitted on
`history` (line 50) and the scores are computed from that freshly fitted state; when
`history` is empty the vectorizer is untouched and unused. -/
def predictWithState (g : String → Except String (List String)) (sc : Scorer)
    (st : Option (List String)) (current_input : String) (history : List String) :
    Except String (List Candidate) × Option (List String) :=
  match g current_input with
  | .error e => (.error e, st)
  | .ok outputs =>
    let ml_predictions := outputs.filter fun d => current_input.data.isPrefixOf d.data
    if history = [] then
      (.ok (ml_predictions.map fun p => { command := p, score := genScore }), st)
    else
      let fitted := history
      ((.ok (mergePredictions ml_predictions history (sc.score current_input fitted))),
        some fitted)

/-! ### The websocket session (`websocket_endpoint`, lines 82–115)

The session's external collaborators: the generative black box, the scorer, and the
history store.  `store cmd ctx` models `record_command`'s `INSERT` (lines 73–78): it
either succeeds or raises with a message; `record_command` has no handler, so a
failure propagates to the session loop. -/
structure Env where
  gen : String → Except String (List String)
  scorer : Scorer
  store : String → String → Except String Unit

/-- One inbound websocket text frame, as seen after `websocket.receive_text()`:
either a frame `json.loads` rejects (raising, with the given message), or a parsed
JSON object with its relevant optional fields.  `ty = none` models a frame without a
`"type"` key, so that `request["type"]` raises. -/
inductive Inbound where
  | parseError (msg : String)
  | req (ty : Option String) (current_input : Option String)
      (history : Option (List String)) (command : Option String)
      (context : Option String)
deriving DecidableEq

/-- One outbound envelope sent by the session. -/
inductive Reply where
  | predictions (ps : List Candidate)
  | recorded
  | error (msg : String)
deriving DecidableEq

/-- The body of the `while True` loop (lines 88–109) for one message:
`.error e` models an exception escaping the body, `.ok none` the fall-through when
`request["type"]` is neither `"predict"` nor `"record"` (no reply is sent), and
`.ok (some r)` a sent envelope.  Key lookups `request["type"]`, `request["current_input"]`
and `request["command"]` raise `KeyError` when missing; `request.get("history", [])`
and `request.get("context", "")` default. -/
def handleMessage (env : Env) : Inbound → Except String (Option Reply)
  | .parseError m => .error m
  | .req ty ci hist cmd cx =>
    match ty with
    | none => .error "KeyError: type"
    | some t =>
      if t = "predict" then
        match ci with
        | none => .error "KeyError: current_input"
        | some inp =>
          match predict_next_command env.gen env.scorer inp (hist.getD []) with
          | .error e => .error e
          | .ok ps => .ok (some (.predictions ps))
      else if t = "record" then
        match cmd with
        | none => .error "KeyError: command"
        | some c =>
          match env.store c (cx.getD "") with
          | .error e => .error e
          | .ok _ => .ok (some .recorded)
      else
        .ok none

/-- The session loop (lines 86–115): process inbound frames in order; a reply is sent
for each handled frame; when the body raises, the `except` clause — which sits
*outside* the `while` loop — sends one `error` envelope and the loop is over, leaving
the remaining frames unprocessed. -/
def sessionLoop (env : Env) : List Inbound → List Reply
  | [] => []
  | m :: rest =>
    match handleMessage env m with
    | .ok none => sessionLoop env rest
    | .ok (some r) => r :: sessionLoop env rest
    | .error e => [.error e]

/-! ### Concrete collaborators used by witnesses and counterexamples -/

deriving instance DecidableEq for Except

/-- A scorer giving every history entry similarity `0`. -/
def constScorer : Scorer :=
  ⟨fun _ h => h.map fun _ => 0, by intro q h; simp⟩

/-- A scorer scoring entry `i` as `i`, so scores are strictly increasing in the
history index. -/
def stepScorer : Scorer :=
  ⟨fun _ h => List.map (fun (i : ℕ) => (i : ℚ)) (List.range h.length), by
    intro q h; rw [List.length_map, List.length_range]⟩

/-- A benign environment: empty generative output, zero scorer, always-succeeding
store. -/
def okEnv : Env :=
  ⟨fun _ => .ok [], constScorer, fun _ _ => .ok ()⟩

/-- An environment whose generative proposer always fails. -/
def downEnv : Env :=
  ⟨fun _ => .error "model down", constScorer, fun _ _ => .ok ()⟩

/-- An environment whose history store always fails to append. -/
def failStoreEnv : Env :=
  ⟨fun _ => .ok [], constScorer, fun _ _ => .error "disk full"⟩

/-! ### Small facts -/

theorem isPrefixOf_self : ∀ l : List Char, l.isPrefixOf l = true
  | [] => rfl
  | c :: rest => by
    rw [List.isPrefixOf_cons₂]
    simp [isPrefixOf_self rest]

theorem getD_mem_of_lt {l : List String} {i : ℕ} (h : i < l.length) :
    l.getD i "" ∈ l := by
  rw [List.getD_eq_getElem l "" h]
  exact List.getElem_mem h

/-! ### Lemmas about `argsort` -/

theorem argsort_sorted (scores : List ℚ) :
    List.Sorted (idxLE scores) (argsort scores) :=
  List.sorted_insertionSort (idxLE scores) (List.range scores.length)

theorem argsort_perm (scores : List ℚ) :
    List.Perm (argsort scores) (List.range scores.length) :=
  List.perm_insertionSort (idxLE scores) (List.range scores.length)

theorem mem_argsort {scores : List ℚ} {i : ℕ} :
    i ∈ argsort scores ↔ i < scores.length := by
  rw [(argsort_perm scores).mem_iff, List.mem_range]

theorem argsort_drop_sorted (scores : List ℚ) (k : ℕ) :
    List.Sorted (idxLE scores) ((argsort scores).drop k) :=
  (argsort_sorted scores).sublist (List.drop_sublist k _)

/-! ### Lemmas about the second merge loop (`appendHist`) -/

theorem appendHist_eq_map_sel (history : List String) (scores : List ℚ) :
    ∀ (idxs : List ℕ) (seen : List String),
    ∃ sel : List ℕ, sel.Sublist idxs ∧
      appendHist history scores idxs seen = sel.map (histCand history scores)
  | [], _ => ⟨[], List.Sublist.slnil, rfl⟩
  | idx :: rest, seen => by
    by_cases hc : history.getD idx "" ∈ seen
    · rcases appendHist_eq_map_sel history scores rest seen with ⟨sel, hsub, heq⟩
      refine ⟨sel, hsub.cons idx, ?_⟩
      simpa only [appendHist, if_pos hc] using heq
    · rcases appendHist_eq_map_sel history scores rest
        (history.getD idx "" :: seen) with ⟨sel, hsub, heq⟩
      refine ⟨idx :: sel, hsub.cons₂ idx, ?_⟩
      simp only [appendHist, if_neg hc, List.map_cons, histCand]
      exact congrArg _ heq

theorem appendHist_mem : ∀ (history : List String) (scores : List ℚ)
    (idxs : List ℕ) (seen : List String) (c : Candidate),
    c ∈ appendHist history scores idxs seen →
      c.command ∉ seen ∧ ∃ i ∈ idxs, c = histCand history scores i
  | history, scores, [], seen, c, h => by simp [appendHist] at h
  | history, scores, idx :: rest, seen, c, h => by
    by_cases hc : history.getD idx "" ∈ seen
    · simp only [appendHist, if_pos hc] at h
      rcases appendHist_mem history scores rest seen c h with ⟨h1, i, hi, h2⟩
      exact ⟨h1, i, List.mem_cons_of_mem _ hi, h2⟩
    · simp only [appendHist, if_neg hc, List.mem_cons] at h
      rcases h with rfl | h
      · exact ⟨hc, idx, List.mem_cons_self _ _, rfl⟩
      · rcases appendHist_mem history scores rest
          (history.getD idx "" :: seen) c h with ⟨h1, i, hi, h2⟩
        exact ⟨fun hs => h1 (List.mem_cons_of_mem _ hs), i,
          List.mem_cons_of_mem _ hi, h2⟩

theorem appendHist_nodup : ∀ (history : List String) (scores : List ℚ)
    (idxs : List ℕ) (seen : List String),
    ((appendHist history scores idxs seen).map Candidate.command).Nodup
  | _, _, [], _ => by simp [appendHist]
  | history, scores, idx :: rest, seen => by
    by_cases hc : history.getD idx "" ∈ seen
    · simpa only [appendHist, if_pos hc] using appendHist_nodup history scores rest seen
    · simp only [appendHist, if_neg hc, List.map_cons, List.nodup_cons]
      refine ⟨?_, appendHist_nodup history scores rest _⟩
      intro hmem
      rcases List.mem_map.mp hmem with ⟨c, hcmem, hcmd⟩
      exact (appendHist_mem history scores rest _ c hcmem).1
        (hcmd ▸ List.mem_cons_self _ _)

theorem appendHist_covers : ∀ (history : List String) (scores : List ℚ)
    (idxs : List ℕ) (seen : List String) (i : ℕ), i ∈ idxs →
    history.getD i "" ∈ seen ∨
      history.getD i "" ∈ (appendHist history scores idxs seen).map Candidate.command
  | _, _, [], _, i, hi => absurd hi (List.not_mem_nil _)
  | history, scores, idx :: rest, seen, i, hi => by
    by_cases hc : history.getD idx "" ∈ seen
    · simp only [appendHist, if_pos hc]
      rcases List.mem_cons.mp hi with rfl | hi
      · exact Or.inl hc
      · exact appendHist_covers history scores rest seen i hi
    · simp only [appendHist, if_neg hc, List.map_cons]
      rcases List.mem_cons.mp hi with rfl | hi
      · exact Or.inr (List.mem_cons_self _ _)
      · rcases appendHist_covers history scores rest
          (history.getD idx "" :: seen) i hi with h | h
        · rcases List.mem_cons.mp h with heq | h
          · exact Or.inr (heq ▸ List.mem_cons_self _ _)
          · exact Or.inl h
        · exact Or.inr (List.mem_cons_of_mem _ h)

/-! ### Lemmas about the first merge loop (`dedupGen`) -/

theorem dedupGen_mem : ∀ (ml seen : List String) (c : Candidate),
    c ∈ dedupGen ml seen → c.score = genScore ∧ c.command ∈ ml ∧ c.command ∉ seen
  | [], _, _, h => by simp [dedupGen] at h
  | p :: rest, seen, c, h => by
    by_cases hp : p ∈ seen
    · simp only [dedupGen, if_pos hp] at h
      rcases dedupGen_mem rest seen c h with ⟨h1, h2, h3⟩
      exact ⟨h1, List.mem_cons_of_mem _ h2, h3⟩
    · simp only [dedupGen, if_neg hp, List.mem_cons] at h
      rcases h with rfl | h
      · exact ⟨rfl, List.mem_cons_self _ _, hp⟩
      · rcases dedupGen_mem rest (p :: seen) c h with ⟨h1, h2, h3⟩
        exact ⟨h1, List.mem_cons_of_mem _ h2,
          fun hc => h3 (List.mem_cons_of_mem _ hc)⟩

theorem dedupGen_nodup : ∀ (ml seen : List String),
    ((dedupGen ml seen).map Candidate.command).Nodup
  | [], _ => by simp [dedupGen]
  | p :: rest, seen => by
    by_cases hp : p ∈ seen
    · simpa only [dedupGen, if_pos hp] using dedupGen_nodup rest seen
    · simp only [dedupGen, if_neg hp, List.map_cons, List.nodup_cons]
      refine ⟨?_, dedupGen_nodup rest (p :: seen)⟩
      intro hmem
      rcases List.mem_map.mp hmem with ⟨c, hc, hcmd⟩
      exact (dedupGen_mem rest (p :: seen) c hc).2.2
        (hcmd ▸ List.mem_cons_self _ _)

theorem mem_dedupGen : ∀ (ml seen : List String) (p : String),
    p ∈ ml → p ∉ seen → Candidate.mk p genScore ∈ dedupGen ml seen
  | [], _, _, hp, _ => absurd hp (List.not_mem_nil _)
  | q :: rest, seen, p, hp, hs => by
    by_cases hq : q ∈ seen
    · simp only [dedupGen, if_pos hq]
      rcases List.mem_cons.mp hp with rfl | hp
      · exact absurd hq hs
      · exact mem_dedupGen rest seen p hp hs
    · simp only [dedupGen, if_neg hq]
      by_cases hpq : p = q
      · subst hpq; exact List.mem_cons_self _ _
      · rcases List.mem_cons.mp hp with rfl | hp
        · exact absurd rfl hpq
        · refine List.mem_cons_of_mem _ (mem_dedupGen rest (q :: seen) p hp ?_)
          intro hc
          rcases List.mem_cons.mp hc with rfl | hc
          · exact hpq rfl
          · exact hs hc

/-! ### Lemmas about `mergePredictions` and `predict_next_command` -/

theorem argsort_length (scores : List ℚ) :
    (argsort scores).length = scores.length :=
  (argsort_perm scores).length_eq.trans (List.length_range _)

theorem topIdx_length_le (scores : List ℚ) : (topIdx scores).length ≤ 3 := by
  rw [topIdx, List.length_drop, argsort_length]
  omega

theorem topIdx_sorted (scores : List ℚ) :
    List.Sorted (idxLE scores) (topIdx scores) :=
  argsort_drop_sorted scores _

theorem mem_topIdx_lt {scores : List ℚ} {i : ℕ} (h : i ∈ topIdx scores) :
    i < scores.length :=
  mem_argsort.mp ((List.drop_sublist _ _).mem h)

theorem topIdx_of_short {scores : List ℚ} (h : scores.length ≤ 3) :
    topIdx scores = argsort scores := by
  rw [topIdx, Nat.sub_eq_zero_of_le h, List.drop_zero]

theorem mergePredictions_def (ml history : List String) (scores : List ℚ) :
    mergePredictions ml history scores =
      dedupGen ml [] ++ appendHist history scores (topIdx scores) ml := rfl

theorem mergePredictions_nodup (ml history : List String) (scores : List ℚ) :
    ((mergePredictions ml history scores).map Candidate.command).Nodup := by
  rw [mergePredictions_def, List.map_append, List.nodup_append]
  refine ⟨dedupGen_nodup ml [], appendHist_nodup history scores _ ml, ?_⟩
  intro cmd h1 h2
  rcases List.mem_map.mp h1 with ⟨c, hc, rfl⟩
  rcases List.mem_map.mp h2 with ⟨c2, hc2, hcmd⟩
  exact (appendHist_mem history scores _ ml c2 hc2).1
    (hcmd ▸ (dedupGen_mem ml [] c hc).2.1)

theorem predict_ok_nonempty (g : String → Except String (List String)) (sc : Scorer)
    (inp : String) (hist outs : List String) (hg : g inp = .ok outs)
    (hne : hist ≠ []) :
    predict_next_command g sc inp hist =
      .ok (mergePredictions (outs.filter fun d => inp.data.isPrefixOf d.data)
        hist (sc.score inp hist)) := by
  unfold predict_next_command
  rw [hg]
  simp only [if_neg hne]

theorem predict_ok_empty (g : String → Except String (List String)) (sc : Scorer)
    (inp : String) (outs : List String) (hg : g inp = .ok outs) :
    predict_next_command g sc inp [] =
      .ok ((outs.filter fun d => inp.data.isPrefixOf d.data).map
        fun p => { command := p, score := genScore }) := by
  unfold predict_next_command
  rw [hg]
  simp

theorem predict_error (g : String → Except String (List String)) (sc : Scorer)
    (inp : String) (hist : List String) (e : String) (hg : g inp = .error e) :
    predict_next_command g sc inp hist = .error e := by
  unfold predict_next_command
  rw [hg]

/-! ### Claim theorems -/

/-- C9: with the generative proposer a fixed deterministic stub, the candidate list
computed by `predictWithState` does not depend on the vectorizer state the
predictor carries between calls, so a second call with identical `current_input`
and `history` — starting from whatever state the first call left behind — returns
the identical ordered result. -/
theorem C9_predict_deterministic (g : String → Except String (List String))
    (sc : Scorer) (st1 st2 : Option (List String)) (inp : String)
    (hist : List String) :
    (predictWithState g sc st1 inp hist).1 = (predictWithState g sc st2 inp hist).1 ∧
    (predictWithState g sc (predictWithState g sc st1 inp hist).2 inp hist).1 =
      (predictWithState g sc st1 inp hist).1 := by
  unfold predictWithState
  cases g inp with
  | error e => simp
  | ok outputs => by_cases h : hist = [] <;> simp [h]

/-- C6: for every `current_input` with empty history, `predict_next_command`
returns exactly the surviving generative candidates, each with the fixed
confidence score; the result is identical for any two scorers, so the lexical
scorer is never fitted or applied on the empty-history path. -/
theorem C6_empty_history_generative_only (g : String → Except String (List String))
    (sc sc2 : Scorer) (inp : String) :
    predict_next_command g sc inp [] = predict_next_command g sc2 inp [] ∧
    (∀ outs, g inp = .ok outs →
      predict_next_command g sc inp [] =
        .ok ((outs.filter fun d => inp.data.isPrefixOf d.data).map
          fun p => { command := p, score := genScore })) := by
  refine ⟨?_, fun outs hg => predict_ok_empty g sc inp outs hg⟩
  unfold predict_next_command
  cases g inp <;> simp

/-- Witness for C6: concrete generative output `["git status"]`, two different
scorers, input `"git"`. -/
theorem C6_empty_history_generative_only_witness :
    predict_next_command (fun _ => .ok ["git status"]) constScorer "git" [] =
      predict_next_command (fun _ => .ok ["git status"]) stepScorer "git" [] ∧
    predict_next_command (fun _ => .ok ["git status"]) constScorer "git" [] =
      .ok [{ command := "git status", score := genScore }] := by
  have h := C6_empty_history_generative_only (fun _ => .ok ["git status"])
    constScorer stepScorer "git"
  exact ⟨h.1, (h.2 ["git status"] rfl).trans (by rfl)⟩

/-- C4 (code bug): a parsed message whose `type` is neither `"predict"` nor
`"record"` falls through the `if`/`elif` chain, which has no `else` — the session
sends no reply at all (not the `error` envelope the claim requires), and the loop
silently moves on to the next frame, so the client that sent `{"type": "unknown"}`
gets silence. -/
theorem C4_unknown_type_gets_no_reply :
    sessionLoop okEnv [.req (some "unknown") none none none none] = [] ∧
    sessionLoop okEnv [.req (some "unknown") none none none none,
        .req (some "record") none none (some "ls") none] = [.recorded] :=
  ⟨rfl, rfl⟩

/-- C8 (code bug): the `except` clause sits outside the `while` loop, so after one
error envelope the receive loop is over: a valid `record` request following a
malformed frame is never processed and never answered, although the same request
alone would succeed. -/
theorem C8_loop_ends_after_first_error :
    sessionLoop okEnv [.parseError "Expecting value",
        .req (some "record") none none (some "ls") none] =
      [.error "Expecting value"] ∧
    sessionLoop okEnv [.req (some "record") none none (some "ls") none] =
      [.recorded] :=
  ⟨rfl, rfl⟩

/-- C3 counterexample: with non-empty history and a failing generative proposer,
`predict_next_command` does not return history-only predictions — the failure
propagates unchanged, because the method body contains no exception handler. -/
theorem C3_counterexample :
    predict_next_command (fun _ => .error "model down") constScorer "git"
      ["git status"] = .error "model down" := rfl

/-- C3 amended: if the generative proposer fails during `predict`, the failure
propagates out of `predict_next_command`; the session's outer handler then answers
with a single `error` envelope (which also ends the receive loop) — the engine does
not degrade to history-only predictions. -/
theorem C3_generative_failure_propagates (env : Env) (inp : String)
    (hist : List String) (rest : List Inbound) (e : String)
    (hg : env.gen inp = .error e) :
    predict_next_command env.gen env.scorer inp hist = .error e ∧
    sessionLoop env
      (.req (some "predict") (some inp) (some hist) none none :: rest) =
      [.error e] := by
  have hp := predict_error env.gen env.scorer inp hist e hg
  refine ⟨hp, ?_⟩
  simp [sessionLoop, handleMessage, hp]

/-- Witness for C3 at a concrete failing environment. -/
theorem C3_generative_failure_propagates_witness :
    predict_next_command downEnv.gen downEnv.scorer "git" ["git status"] =
      .error "model down" ∧
    sessionLoop downEnv
      [.req (some "predict") (some "git") (some ["git status"]) none none] =
      [.error "model down"] :=
  C3_generative_failure_propagates downEnv "git" ["git status"] [] "model down" rfl

/-- C7: a `record` request is acknowledged with `recorded` exactly when the store
append succeeds; when the append fails, the session sends an `error` envelope
instead — a recorded command is never silently dropped. -/
theorem C7_record_ack_iff_store_ok (env : Env) (cmd cx : String)
    (rest : List Inbound) :
    (∀ e, env.store cmd cx = .error e →
      sessionLoop env (.req (some "record") none none (some cmd) (some cx) :: rest) =
        [.error e]) ∧
    (env.store cmd cx = .ok () →
      sessionLoop env (.req (some "record") none none (some cmd) (some cx) :: rest) =
        .recorded :: sessionLoop env rest) := by
  constructor
  · intro e he
    simp [sessionLoop, handleMessage, he]
  · intro hok
    simp [sessionLoop, handleMessage, hok]

/-- Witness for C7: a failing store is answered with an `error` envelope, a
successful store with `recorded`. -/
theorem C7_record_ack_iff_store_ok_witness :
    sessionLoop failStoreEnv
      [.req (some "record") none none (some "ls -la") (some "ctx")] =
      [.error "disk full"] ∧
    sessionLoop okEnv
      [.req (some "record") none none (some "ls -la") (some "ctx")] =
      [.recorded] := by
  constructor
  · exact (C7_record_ack_iff_store_ok failStoreEnv "ls -la" "ctx" []).1 "disk full" rfl
  · have h := (C7_record_ack_iff_store_ok okEnv "ls -la" "ctx" []).2 rfl
    simpa using h

/-- C2 counterexample: with empty history the code (line 71 of the source) returns
the surviving generative candidates without any deduplication, so when the
generative proposer emits the same completion twice the returned list carries two
candidates with the same command string. -/
theorem C2_counterexample :
    predict_next_command (fun _ => .ok ["ls", "ls"]) constScorer "ls" [] =
      .ok [{ command := "ls", score := genScore },
        { command := "ls", score := genScore }] ∧
    ¬ (([{ command := "ls", score := genScore },
        { command := "ls", score := genScore }] : List Candidate).map
        Candidate.command).Nodup :=
  ⟨rfl, by simp⟩

/-- C2 amended: for every input and every NON-EMPTY history, no two candidates in
the returned list share a command string, and every surviving generative candidate
is present carrying the generative score — so when a command appears both
generatively and in history, the unique candidate carrying it is the generative
one.  (With empty history the generative candidates are returned with no
deduplication.) -/
theorem C2_nodup_nonempty_history (g : String → Except String (List String))
    (sc : Scorer) (inp : String) (hist outs : List String)
    (hg : g inp = .ok outs) (hne : hist ≠ []) :
    ∃ l, predict_next_command g sc inp hist = .ok l ∧
      (l.map Candidate.command).Nodup ∧
      (∀ d ∈ outs, inp.data.isPrefixOf d.data = true →
        { command := d, score := genScore } ∈ l) := by
  refine ⟨_, predict_ok_nonempty g sc inp hist outs hg hne,
    mergePredictions_nodup _ _ _, ?_⟩
  intro d hd hpref
  rw [mergePredictions_def]
  exact List.mem_append_left _
    (mem_dedupGen _ [] d (List.mem_filter.mpr ⟨hd, hpref⟩) (List.not_mem_nil d))

/-- Witness for C2 at a concrete run. -/
theorem C2_nodup_nonempty_history_witness :
    ∃ l, predict_next_command (fun _ => .ok ["git status"]) constScorer "git"
        ["ls"] = .ok l ∧
      (l.map Candidate.command).Nodup ∧
      (∀ d ∈ ["git status"], "git".data.isPrefixOf d.data = true →
        { command := d, score := genScore } ∈ l) :=
  C2_nodup_nonempty_history (fun _ => .ok ["git status"]) constScorer "git"
    ["ls"] ["git status"] rfl (by simp)

/-- C5: a generative candidate survives exactly when its text begins with
`current_input` as a literal prefix — in particular one equal to `current_input`
itself survives —, every surviving generative candidate appears with the fixed
confidence score whatever the similarity scores are, and every returned candidate
that is not a history entry is such a surviving generative candidate. -/
theorem C5_prefix_filter_and_fixed_score (g : String → Except String (List String))
    (sc : Scorer) (inp : String) (hist outs : List String)
    (hg : g inp = .ok outs) :
    ∃ l, predict_next_command g sc inp hist = .ok l ∧
      (∀ d ∈ outs, inp.data.isPrefixOf d.data = true →
        { command := d, score := genScore } ∈ l) ∧
      (∀ c ∈ l, c.command ∉ hist →
        c.command ∈ outs ∧ inp.data.isPrefixOf c.command.data = true ∧
          c.score = genScore) ∧
      (inp ∈ outs → { command := inp, score := genScore } ∈ l) := by
  by_cases hne : hist = []
  · subst hne
    refine ⟨_, predict_ok_empty g sc inp outs hg, ?_, ?_, ?_⟩
    · intro d hd hpref
      exact List.mem_map.mpr ⟨d, List.mem_filter.mpr ⟨hd, hpref⟩, rfl⟩
    · intro c hc _
      rcases List.mem_map.mp hc with ⟨p, hp, rfl⟩
      rcases List.mem_filter.mp hp with ⟨hp1, hp2⟩
      exact ⟨hp1, hp2, rfl⟩
    · intro hin
      exact List.mem_map.mpr ⟨inp, List.mem_filter.mpr ⟨hin, isPrefixOf_self _⟩, rfl⟩
  · refine ⟨_, predict_ok_nonempty g sc inp hist outs hg hne, ?_, ?_, ?_⟩
    · intro d hd hpref
      rw [mergePredictions_def]
      exact List.mem_append_left _
        (mem_dedupGen _ [] d (List.mem_filter.mpr ⟨hd, hpref⟩) (List.not_mem_nil d))
    · intro c hc hnotin
      rw [mergePredictions_def] at hc
      rcases List.mem_append.mp hc with hc | hc
      · rcases dedupGen_mem _ [] c hc with ⟨h1, h2, _⟩
        rcases List.mem_filter.mp h2 with ⟨h3, h4⟩
        exact ⟨h3, h4, h1⟩
      · exfalso
        rcases appendHist_mem hist _ _ _ c hc with ⟨_, i, hi, rfl⟩
        apply hnotin
        have hlt : i < (sc.score inp hist).length := mem_topIdx_lt hi
        rw [sc.length_eq] at hlt
        exact getD_mem_of_lt hlt
    · intro hin
      rw [mergePredictions_def]
      exact List.mem_append_left _
        (mem_dedupGen _ [] inp
          (List.mem_filter.mpr ⟨hin, isPrefixOf_self _⟩) (List.not_mem_nil inp))

/-- Witness for C5: `"python"` is prefix-invalid and dropped, `"git status"` is
kept with the fixed score, and `"git"` — equal to the input — is kept as well. -/
theorem C5_prefix_filter_and_fixed_score_witness :
    ∃ l, predict_next_command (fun _ => .ok ["git status", "python", "git"])
        constScorer "git" ["ls"] = .ok l ∧
      (∀ d ∈ ["git status", "python", "git"], "git".data.isPrefixOf d.data = true →
        { command := d, score := genScore } ∈ l) ∧
      (∀ c ∈ l, c.command ∉ ["ls"] →
        c.command ∈ ["git status", "python", "git"] ∧
          "git".data.isPrefixOf c.command.data = true ∧ c.score = genScore) ∧
      ("git" ∈ ["git status", "python", "git"] →
        { command := "git", score := genScore } ∈ l) :=
  C5_prefix_filter_and_fixed_score (fun _ => .ok ["git status", "python", "git"])
    constScorer "git" ["ls"] ["git status", "python", "git"] rfl

/-- C1 counterexample: `np.argsort(scores)[-3:]` is iterated in ASCENDING score
order, so with history `["a", "b"]` scored `[0, 1]` and no generative candidates
the engine returns `"a"` (similarity 0) before `"b"` (similarity 1): the
history-derived candidates are not appended in descending-similarity order. -/
theorem C1_counterexample :
    predict_next_command (fun _ => .ok []) stepScorer "" ["a", "b"] =
      .ok [{ command := "a", score := 0 }, { command := "b", score := 1 }] ∧
    (0 : ℚ) < 1 :=
  ⟨rfl, by norm_num⟩

/-- C1 amended: for every non-empty history the returned list is the deduplicated
generative candidates followed by history-derived candidates drawn from the
top-3-by-similarity selection in ASCENDING-similarity order, ties in score broken
by original history index with the earliest-recorded entry first (the order
`idxLE` captures). -/
theorem C1_history_appended_ascending (g : String → Except String (List String))
    (sc : Scorer) (inp : String) (hist outs : List String)
    (hg : g inp = .ok outs) (hne : hist ≠ []) :
    ∃ sel : List ℕ,
      sel.Sublist (topIdx (sc.score inp hist)) ∧
      List.Sorted (idxLE (sc.score inp hist)) sel ∧
      List.Sorted (fun a b : Candidate => a.score ≤ b.score)
        (sel.map (histCand hist (sc.score inp hist))) ∧
      predict_next_command g sc inp hist =
        .ok (dedupGen (outs.filter fun d => inp.data.isPrefixOf d.data) [] ++
          sel.map (histCand hist (sc.score inp hist))) := by
  rcases appendHist_eq_map_sel hist (sc.score inp hist) (topIdx (sc.score inp hist))
      (outs.filter fun d => inp.data.isPrefixOf d.data) with ⟨sel, hsub, heq⟩
  have hsorted : List.Sorted (idxLE (sc.score inp hist)) sel :=
    (topIdx_sorted _).sublist hsub
  refine ⟨sel, hsub, hsorted, ?_, ?_⟩
  · refine List.pairwise_map.mpr (hsorted.imp fun hij => ?_)
    rcases hij with h | ⟨h, _⟩
    · exact le_of_lt h
    · exact le_of_eq h
  · rw [predict_ok_nonempty g sc inp hist outs hg hne, mergePredictions_def, heq]

/-- Witness for C1 at the counterexample's input. -/
theorem C1_history_appended_ascending_witness :
    ∃ sel : List ℕ,
      sel.Sublist (topIdx (stepScorer.score "" ["a", "b"])) ∧
      List.Sorted (idxLE (stepScorer.score "" ["a", "b"])) sel ∧
      List.Sorted (fun a b : Candidate => a.score ≤ b.score)
        (sel.map (histCand ["a", "b"] (stepScorer.score "" ["a", "b"]))) ∧
      predict_next_command (fun _ => .ok []) stepScorer "" ["a", "b"] =
        .ok (dedupGen (([] : List String).filter fun d =>
            "".data.isPrefixOf d.data) [] ++
          sel.map (histCand ["a", "b"] (stepScorer.score "" ["a", "b"]))) :=
  C1_history_appended_ascending (fun _ => .ok []) stepScorer "" ["a", "b"] [] rfl
    (by simp)

/-- C10: for every non-empty history the engine appends at most 3 history-derived
candidates after the generative ones; when the history has at most 3 entries every
entry is selected, so every history command appears in the returned list whatever
its similarity — in particular a zero-similarity entry can appear, there being no
minimum-similarity threshold. -/
theorem C10_top3_and_no_threshold (g : String → Except String (List String))
    (sc : Scorer) (inp : String) (hist outs : List String)
    (hg : g inp = .ok outs) (hne : hist ≠ []) :
    ∃ histPart : List Candidate,
      predict_next_command g sc inp hist =
        .ok (dedupGen (outs.filter fun d => inp.data.isPrefixOf d.data) [] ++
          histPart) ∧
      histPart.length ≤ 3 ∧
      (∀ c ∈ histPart, c.command ∈ hist) ∧
      (hist.length ≤ 3 → ∀ cmd ∈ hist,
        cmd ∈ ((dedupGen (outs.filter fun d => inp.data.isPrefixOf d.data) [] ++
          histPart).map Candidate.command)) := by
  refine ⟨appendHist hist (sc.score inp hist) (topIdx (sc.score inp hist))
    (outs.filter fun d => inp.data.isPrefixOf d.data), ?_, ?_, ?_, ?_⟩
  · rw [predict_ok_nonempty g sc inp hist outs hg hne, mergePredictions_def]
  · rcases appendHist_eq_map_sel hist (sc.score inp hist)
        (topIdx (sc.score inp hist))
        (outs.filter fun d => inp.data.isPrefixOf d.data) with ⟨sel, hsub, heq⟩
    rw [heq, List.length_map]
    exact hsub.length_le.trans (topIdx_length_le _)
  · intro c hc
    rcases appendHist_mem hist _ _ _ c hc with ⟨_, i, hi, rfl⟩
    have hlt : i < (sc.score inp hist).length := mem_topIdx_lt hi
    rw [sc.length_eq] at hlt
    exact getD_mem_of_lt hlt
  · intro hlen cmd hcmd
    rcases List.getElem_of_mem hcmd with ⟨i, hilt, hieq⟩
    have hslen : (sc.score inp hist).length = hist.length := sc.length_eq inp hist
    have hitop : i ∈ topIdx (sc.score inp hist) := by
      rw [topIdx_of_short (by rw [hslen]; exact hlen)]
      exact mem_argsort.mpr (by rw [hslen]; exact hilt)
    have hgd : hist.getD i "" = cmd := by
      rw [List.getD_eq_getElem hist "" hilt, hieq]
    rw [List.map_append]
    rcases appendHist_covers hist (sc.score inp hist) (topIdx (sc.score inp hist))
        (outs.filter fun d => inp.data.isPrefixOf d.data) i hitop with h | h
    · rw [hgd] at h
      exact List.mem_append_left _
        (List.mem_map.mpr ⟨{ command := cmd, score := genScore },
          mem_dedupGen _ [] cmd h (List.not_mem_nil cmd), rfl⟩)
    · rw [hgd] at h
      exact List.mem_append_right _ h

/-- Witness for C10: a single-entry history whose entry has zero similarity to the
input still appears in the returned list. -/
theorem C10_top3_and_no_threshold_witness :
    ∃ histPart : List Candidate,
      predict_next_command (fun _ => .ok []) constScorer "git" ["zzz"] =
        .ok (dedupGen (([] : List String).filter fun d =>
          "git".data.isPrefixOf d.data) [] ++ histPart) ∧
      histPart.length ≤ 3 ∧
      (∀ c ∈ histPart, c.command ∈ ["zzz"]) ∧
      ((["zzz"] : List String).length ≤ 3 → ∀ cmd ∈ ["zzz"],
        cmd ∈ ((dedupGen (([] : List String).filter fun d =>
          "git".data.isPrefixOf d.data) [] ++ histPart).map Candidate.command)) :=
  C10_top3_and_no_threshold (fun _ => .ok []) constScorer "git" ["zzz"] [] rfl
    (by simp)
